import Mathlib

/-!
Shallow embedding of `src/line.ts` of the Obsidian-Better-Order-List
repository.  Lines of text are modelled as `List Char`; JavaScript numbers
that can be `NaN` are modelled as `Option Int` (`none` = NaN).  Regular
expressions are modelled by executable functions that reproduce the
backtracking behaviour of the concrete patterns appearing in the source.
-/

namespace BetterOrderList

/-- The `PatternType` union type of `src/line.ts` line 4. -/
inductive PatternType where
  | arabic
  | uppercaseLetter
  | lowercaseLetter
  | romanNumeral
  | chineseNumeral
  deriving DecidableEq, Repr

/-- Character class `\d` of the pattern grammar (code points 48-57,
i.e. `0`-`9`; classes are stated on `Char.toNat` so that disjointness
facts are arithmetic). -/
def isDigitCh (c : Char) : Bool := 48 ≤ c.toNat && c.toNat ≤ 57

/-- Character class `[A-Z]` (code points 65-90). -/
def isUpperAZ (c : Char) : Bool := 65 ≤ c.toNat && c.toNat ≤ 90

/-- Character class `[a-z]` (code points 97-122). -/
def isLowerAZ (c : Char) : Bool := 97 ≤ c.toNat && c.toNat ≤ 122

/-- Character class `[一-龥]` (CJK ideographs U+4E00-U+9FA5) used by the
`chineseNumeral` pattern and by the marker-extraction regex. -/
def isCJK (c : Char) : Bool := 0x4e00 ≤ c.toNat && c.toNat ≤ 0x9fa5

/-- The separator class `[\.|、]` of `identifyPattern`: note that it
contains a literal `|` in the source, so `'|'` (code 124) is accepted as
a separator by the five classification regexes, besides `'.'` (46) and
`'、'` (U+3001). -/
def isSepClass (c : Char) : Bool :=
  c.toNat = 46 || c.toNat = 124 || c.toNat = 0x3001

/-- The separator class `[\.、]` of the decomposition regex
`^([\(\[\【\（])?([^\）\]\】\)]*)([\）\]\】\)])?([\.、](.*))` and of the
punctuation-extraction regex (no `|` here): `'.'` and `'、'`. -/
def isSep2 (c : Char) : Bool := c.toNat = 46 || c.toNat = 0x3001

/-- Opening brackets `[\(\[\【\（]` of the decomposition regex:
`(` `[` `【` `（`. -/
def isOpener (c : Char) : Bool :=
  c.toNat = 40 || c.toNat = 91 || c.toNat = 0x3010 || c.toNat = 0xff08

/-- Closing brackets `[\）\]\】\)]` of the decomposition regex:
`）` `]` `】` `)`. -/
def isCloser (c : Char) : Bool :=
  c.toNat = 0xff09 || c.toNat = 93 || c.toNat = 0x3011 || c.toNat = 41

/-- Character class `[\w一-龥]` of the marker-extraction regex
(`\w` is `[A-Za-z0-9_]`). -/
def isWordChar (c : Char) : Bool :=
  isDigitCh c || isUpperAZ c || isLowerAZ c || c.toNat = 95 || isCJK c

/-- Test of the regex `^\d+[\.|、]`: one or more digits followed by a
separator.  Because digits and separators are disjoint, the regex matches
iff the maximal leading digit run is nonempty and is followed by a
separator character. -/
def arabicTest (s : List Char) : Bool :=
  let run := s.takeWhile isDigitCh
  !run.isEmpty &&
    (match s.drop run.length with
     | c :: _ => isSepClass c
     | [] => false)

/-- Test of the regex `^[A-Z][\.|、]`. -/
def upperTest (s : List Char) : Bool :=
  match s with
  | a :: b :: _ => isUpperAZ a && isSepClass b
  | _ => false

/-- Test of the regex `^[a-z][\.|、]`. -/
def lowerTest (s : List Char) : Bool :=
  match s with
  | a :: b :: _ => isLowerAZ a && isSepClass b
  | _ => false

/-- Drop a literal prefix from a string, `none` if it is not a prefix. -/
def dropLit : List Char → List Char → Option (List Char)
  | [], s => some s
  | _ :: _, [] => none
  | c :: p, x :: s => if x = c then dropLit p s else none

/-- Language of the group `(CM|CD|D?C{0,3})` as a finite list of the
strings it can match. -/
def hundredsAlts : List (List Char) :=
  [['C','M'], ['C','D'],
   [], ['C'], ['C','C'], ['C','C','C'],
   ['D'], ['D','C'], ['D','C','C'], ['D','C','C','C']]

/-- Language of the group `(XC|XL|L?X{0,3})`. -/
def tensAlts : List (List Char) :=
  [['X','C'], ['X','L'],
   [], ['X'], ['X','X'], ['X','X','X'],
   ['L'], ['L','X'], ['L','X','X'], ['L','X','X','X']]

/-- Language of the group `(IX|IV|V?I{0,3})`. -/
def onesAlts : List (List Char) :=
  [['I','X'], ['I','V'],
   [], ['I'], ['I','I'], ['I','I','I'],
   ['V'], ['V','I'], ['V','I','I'], ['V','I','I','I']]

/-- Remainders of `s` after consuming `M{0,4}` (0 to 4 literal `M`s). -/
def mRems (s : List Char) : List (List Char) :=
  (List.range 5).filterMap (fun m => dropLit (List.replicate m 'M') s)

/-- Remainders after consuming one alternative of a group. -/
def altRems (alts : List (List Char)) (s : List Char) : List (List Char) :=
  alts.filterMap (fun a => dropLit a s)

/-- Test of the regex
`^M{0,4}(CM|CD|D?C{0,3})(XC|XL|L?X{0,3})(IX|IV|V?I{0,3})[\.|、]`:
a match exists iff some choice of the four groups is a prefix of `s`
followed by a separator character.  Every group can match the empty
string, so a line starting with a separator matches. -/
def romanTest (s : List Char) : Bool :=
  (mRems s).any fun r1 =>
    (altRems hundredsAlts r1).any fun r2 =>
      (altRems tensAlts r2).any fun r3 =>
        (altRems onesAlts r3).any fun r4 =>
          match r4 with
          | c :: _ => isSepClass c
          | [] => false

/-- Test of the regex `^[一-龥]+[\.|、]`.  CJK characters and
separators are disjoint, so the maximal-run criterion is exact. -/
def chineseTest (s : List Char) : Bool :=
  let run := s.takeWhile isCJK
  !run.isEmpty &&
    (match s.drop run.length with
     | c :: _ => isSepClass c
     | [] => false)

/-- The `patterns` object of `identifyPattern`, in its key insertion
order (which is the `for..in` iteration order for string keys). -/
def patterns : List (PatternType × (List Char → Bool)) :=
  [(.arabic, arabicTest),
   (.uppercaseLetter, upperTest),
   (.lowercaseLetter, lowerTest),
   (.romanNumeral, romanTest),
   (.chineseNumeral, chineseTest)]

/-- `identifyPattern` of `src/line.ts` lines 11-26: return the first
pattern whose regex tests true, else `null`. -/
def identifyPattern (lineText : List Char) : Option PatternType :=
  (patterns.find? (fun p => p.2 lineText)).map (fun p => p.1)

/-- A JavaScript number that may be `NaN` (`none`). -/
abbrev JSNum := Option Int

/-- JavaScript `+` where either operand may be `undefined`/`NaN`. -/
def addJS : JSNum → JSNum → JSNum
  | some a, some b => some (a + b)
  | _, _ => none

/-- JavaScript `-` where either operand may be `undefined`/`NaN`. -/
def subJS : JSNum → JSNum → JSNum
  | some a, some b => some (a - b)
  | _, _ => none

/-- JavaScript `<` on possibly-`undefined` operands: any comparison with
`undefined`/`NaN` is false. -/
def ltJS : JSNum → JSNum → Bool
  | some a, some b => a < b
  | _, _ => false

/-- Successor on a JavaScript number (`NaN + 1 = NaN`). -/
def jsAdd1 (x : JSNum) : JSNum := x.map (fun a => a + 1)

/-- The per-character lookup `romanNumerals[roman[i]]` of `romanToArabic`
(`src/line.ts` lines 55-59).  Only single-character keys can come out of
indexing a string, so the two-character table entries are unreachable;
unknown characters give `undefined` (`none`). -/
def romanValue (c : Char) : JSNum :=
  if c = 'M' then some 1000
  else if c = 'D' then some 500
  else if c = 'C' then some 100
  else if c = 'L' then some 50
  else if c = 'X' then some 10
  else if c = 'V' then some 5
  else if c = 'I' then some 1
  else none

/-- `romanToArabic` of `src/line.ts` lines 54-70: scan the string (the
source iterates right to left accumulating into `arabic`; the fold below
computes the same sum), subtracting a symbol strictly smaller than its
right neighbour and adding otherwise.  The right neighbour of the last
symbol is `undefined`, so the last symbol is always added.  Adding or
subtracting `undefined` poisons the result to `NaN`. -/
def romanToArabic : List Char → JSNum
  | [] => some 0
  | c :: rest =>
    let v := romanValue c
    let nv : JSNum := match rest with
      | [] => none
      | d :: _ => romanValue d
    if ltJS v nv then subJS (romanToArabic rest) v
    else addJS (romanToArabic rest) v

/-- The 13-entry subtractive table of `arabicToRoman`
(`src/line.ts` line 78), in object-key insertion order. -/
def romanTable : List (List Char × Int) :=
  [(['M'], 1000), (['C','M'], 900), (['D'], 500), (['C','D'], 400),
   (['C'], 100), (['X','C'], 90), (['L'], 50), (['X','L'], 40),
   (['X'], 10), (['I','X'], 9), (['V'], 5), (['I','V'], 4), (['I'], 1)]

/-- The nested `for key`/`while (number >= value)` loops of
`arabicToRoman`: for each table entry in order, emit the symbol while the
number is at least its value.  The recursion is made structural with a
fuel argument bounding the total number of loop iterations; every entry
value is at least 1, so `n.toNat + 13` iterations always suffice. -/
def romanGo : Nat → List (List Char × Int) → Int → List Char
  | 0, _, _ => []
  | _ + 1, [], _ => []
  | fuel + 1, (sym, v) :: rest, n =>
    if v ≤ n then sym ++ romanGo fuel ((sym, v) :: rest) (n - v)
    else romanGo fuel rest n

/-- `arabicToRoman` of `src/line.ts` lines 77-89 (argument is an `Int`;
for `NaN` see `arabicToRomanJS`).  Nonpositive numbers produce `''`. -/
def arabicToRoman (n : Int) : List Char :=
  romanGo (n.toNat + 13) romanTable n

/-- `arabicToRoman` applied to a possibly-`NaN` number: every
`while (number >= value)` test is false on `NaN`, giving `''`. -/
def arabicToRomanJS : JSNum → List Char
  | some n => arabicToRoman n
  | none => []

/-- `chineseToArabic` of `src/line.ts` lines 96-102: the WHOLE argument
string is used as the lookup key, and all keys are single characters, so
only one-character strings can hit the table; anything else gives
`undefined || 0 = 0`. -/
def chineseToArabic (chinese : List Char) : Int :=
  match chinese with
  | [c] =>
    if c = '一' then 1 else if c = '二' then 2 else if c = '三' then 3
    else if c = '四' then 4 else if c = '五' then 5 else if c = '六' then 6
    else if c = '七' then 7 else if c = '八' then 8 else if c = '九' then 9
    else if c = '十' then 10 else 0
  | _ => 0

/-- The array `['零','一','二','三','四','五','六','七','八','九','十']`. -/
def chineseNumeralChars : List Char :=
  ['零', '一', '二', '三', '四', '五', '六', '七', '八', '九', '十']

/-- `arabicToChinese` of `src/line.ts` lines 109-112: index the array;
out-of-range indices give `undefined || '' = ''`. -/
def arabicToChinese (n : Int) : List Char :=
  if 0 ≤ n && n ≤ 10 then [chineseNumeralChars.getD n.toNat '零'] else []

/-- Decimal digit character. -/
def digitChar (n : Nat) : Char := Char.ofNat (48 + n)

/-- Decimal rendering of a natural number, big-endian, with a fuel
argument making the recursion structural (fuel `n + 1` suffices since
`n / 10 < n` for `n ≥ 10`). -/
def natToCharsAux : Nat → Nat → List Char
  | 0, _ => []
  | fuel + 1, n =>
    if n < 10 then [digitChar n]
    else natToCharsAux fuel (n / 10) ++ [digitChar (n % 10)]

/-- Decimal string of a natural number (JS `Number.prototype.toString`
restricted to naturals). -/
def natToChars (n : Nat) : List Char := natToCharsAux (n + 1) n

/-- JS `Number.prototype.toString` on an integer. -/
def intToString (i : Int) : List Char :=
  if i < 0 then '-' :: natToChars (-i).toNat else natToChars i.toNat

/-- JS implicit number-to-string conversion, `NaN` printing as `"NaN"`. -/
def toStringJS : JSNum → List Char
  | some i => intToString i
  | none => ['N', 'a', 'N']

/-- Value of a nonempty leading digit run. -/
def digitsVal (s : List Char) : Option Nat :=
  let run := s.takeWhile isDigitCh
  if run.isEmpty then none
  else some (run.foldl (fun a c => a * 10 + (c.toNat - 48)) 0)

/-- JS `parseInt` as used in the source: parse an optional `-` sign and a
maximal leading digit run; no digits means `NaN`.  (The call sites only
feed it word-character runs and `toString` outputs, which have no leading
whitespace or radix prefixes.) -/
def parseIntJS : List Char → JSNum
  | [] => none
  | c :: t =>
    if c = '-' then (digitsVal t).map (fun v => -(v : Int))
    else (digitsVal (c :: t)).map (fun v => (v : Int))

/-- JS `String.fromCharCode` (one code unit).  Code units outside the
valid scalar range are clamped to `'\0'` by `Char.ofNat`; the call sites
only produce small codes. -/
def fromCharCode (n : Nat) : Char := Char.ofNat (n % 65536)

/-- `charCodeAt(0)` of a string; `NaN` on the empty string. -/
def charCodeAt0 : List Char → JSNum
  | [] => none
  | c :: _ => some (c.toNat : Int)

/-- `String.fromCharCode(s.charCodeAt(0) + 1)` as in the letter branches
of `getNextNumber`; `fromCharCode(NaN)` is `'\0'`. -/
def nextLetterChar (s : List Char) : Char :=
  match s with
  | [] => fromCharCode 0
  | c :: _ => fromCharCode (c.toNat + 1)

/-- `getNextNumber` of `src/line.ts` lines 34-51.  The TS function
returns `string | null`, but the `default` branch is unreachable for the
five-member union, so the embedding returns the string directly. -/
def getNextNumber (currentNumber punctuation : List Char)
    (patternType : PatternType) : List Char :=
  match patternType with
  | .arabic => toStringJS (jsAdd1 (parseIntJS currentNumber)) ++ punctuation
  | .uppercaseLetter => nextLetterChar currentNumber :: punctuation
  | .lowercaseLetter => nextLetterChar currentNumber :: punctuation
  | .romanNumeral =>
    arabicToRomanJS (jsAdd1 (romanToArabic currentNumber)) ++ punctuation
  | .chineseNumeral =>
    arabicToChinese (chineseToArabic currentNumber + 1) ++ punctuation

/-- Whitespace for JS `String.prototype.trim` (the subset that can occur
in the modelled documents). -/
def isJsSpace (c : Char) : Bool :=
  c = ' ' || c = '\t' || c = '\n' || c = '\r' ||
    c.toNat = 11 || c.toNat = 12 || c.toNat = 0xa0 || c.toNat = 0x3000

/-- JS `String.prototype.trim`. -/
def jsTrim (s : List Char) : List Char :=
  ((s.dropWhile isJsSpace).reverse.dropWhile isJsSpace).reverse

/-- Split a string at its LAST separator (`.` or `、`), if any.  This is
where the backtracking of the greedy group `([^\）\]\】\)]*)` lands when
no closing bracket follows it: the longest second group such that the
next character is a separator. -/
def lastSepSplit : List Char → Option (List Char × Char × List Char)
  | [] => none
  | c :: t =>
    match lastSepSplit t with
    | some (p, s, q) => some (c :: p, s, q)
    | none => if isSep2 c then some ([], c, t) else none

/-- Result groups of a successful match of the decomposition regex
`^([\(\[\【\（])?([^\）\]\】\)]*)([\）\]\】\)])?([\.、](.*))`:
`g1` the optional opening bracket, `g2` the bracket-free run, `g3` the
optional closing bracket, `sep` the separator, `g5` the rest of the line
(group 4 of the regex is `sep :: g5`). -/
structure DecompM where
  g1 : Option Char
  g2 : List Char
  g3 : Option Char
  sep : Char
  g5 : List Char
  deriving DecidableEq, Repr

/-- Match `([^\）\]\】\)]*)([\）\]\】\)])?([\.、](.*))` against `t` with
regex backtracking priority.  The greedy second group first takes the
maximal closer-free run; the character after it (if any) is necessarily a
closing bracket, which the optional third group prefers to consume, and a
separator must follow.  Otherwise the second group backtracks to the last
separator inside the run (the third group cannot match there, since the
run is closer-free). -/
def matchAfter (t : List Char) : Option (List Char × Option Char × Char × List Char) :=
  let run := t.takeWhile (fun c => !isCloser c)
  let rest := t.drop run.length
  match rest with
  | c :: d :: r =>
    if isSep2 d then some (run, some c, d, r)
    else (lastSepSplit run).map (fun (p, s, q) => (p, none, s, q ++ rest))
  | _ => (lastSepSplit run).map (fun (p, s, q) => (p, none, s, q ++ rest))

/-- Full match of the decomposition regex at position 0 (the regexes in
the source are anchored with `^` and `.exec`/`.test` only report whether
and how the anchored match succeeds).  The optional first group prefers
to consume an opening bracket; if no match results, it backtracks to
matching nothing (opening brackets are legal second-group characters). -/
def execDecomp (s : List Char) : Option DecompM :=
  match s with
  | c :: t =>
    if isOpener c then
      match matchAfter t with
      | some (g2, g3, sep, g5) => some ⟨some c, g2, g3, sep, g5⟩
      | none => (matchAfter s).map (fun (g2, g3, sep, g5) => ⟨none, g2, g3, sep, g5⟩)
    else (matchAfter s).map (fun (g2, g3, sep, g5) => ⟨none, g2, g3, sep, g5⟩)
  | [] => none

/-- Render an optional captured bracket as the string `match[i] || ''`. -/
def optStr : Option Char → List Char
  | some c => [c]
  | none => []

/-- `extractBracketsAndText` of `src/line.ts` lines 140-149: on a match
return `[match[1] || '', (match[2] || '') + (match[4] || ''), match[3] || '']`
(note `match[4]` is `sep :: g5`); on no match return `['', lineText, '']`. -/
def extractBracketsAndText (lineText : List Char) :
    List Char × List Char × List Char :=
  match execDecomp lineText with
  | some m => (optStr m.g1, m.g2 ++ m.sep :: m.g5, optStr m.g3)
  | none => ([], lineText, [])

/-- The maximal run matched by `^[\w一-龥]+` (empty if no match). -/
def wordRun (s : List Char) : List Char := s.takeWhile isWordChar

/-- `extractNumber` of `src/line.ts` lines 213-231: take the leading
word-character run; if there is none, return 1; otherwise dispatch on the
pattern type (arabic `parseInt` may be `NaN` on junk, roman parse may be
`NaN`, letters take the RAW `charCodeAt(0)`, Chinese the table lookup). -/
def extractNumber (lineText : List Char) (patternType : PatternType) : JSNum :=
  let run := wordRun lineText
  if run.isEmpty then some 1
  else
    match patternType with
    | .arabic => parseIntJS run
    | .uppercaseLetter => charCodeAt0 run
    | .lowercaseLetter => charCodeAt0 run
    | .romanNumeral => romanToArabic run
    | .chineseNumeral => some (chineseToArabic run)

/-- A CodeMirror `ChangeSpec` `{from, to, insert}` in absolute document
offsets. -/
structure Edit where
  efrom : Nat
  eto : Nat
  insert : List Char
  deriving DecidableEq, Repr

/-- The document as a list of lines; offsets follow CodeMirror's
`doc.line(i)` for the text `intercalate "\n" lines` with 1-based `i`. -/
def nthLine (lines : List (List Char)) (i : Nat) : List Char :=
  lines.getD (i - 1) []

/-- `doc.line(i).from`: sum of the lengths of the previous lines plus one
newline each. -/
def lineFrom (lines : List (List Char)) (i : Nat) : Nat :=
  ((lines.take (i - 1)).map (fun l => l.length + 1)).sum

/-- `doc.line(i).to`. -/
def lineTo (lines : List (List Char)) (i : Nat) : Nat :=
  lineFrom lines i + (nthLine lines i).length

/-- The renumbering `while (lineNumber <= state.doc.lines)` loop of
`handleDelete` (`src/line.ts` lines 180-199), walking the suffix
`remaining = lines.drop (i - 1)` of the document so that the recursion is
structural; `i` is the 1-based number of the head line and `cur` the
running `currentNumber`.  Each classified line gets a replacement edit
when `getNextNumber` returns a truthy (nonempty) string; the loop breaks
at the first unclassified line. -/
def walk (lines : List (List Char)) :
    List (List Char) → Nat → JSNum → List Edit
  | [], _, _ => []
  | ltext :: remaining, i, cur =>
    let dec := extractBracketsAndText ltext
    let bracketLeft := dec.1
    let textWithoutBrackets := dec.2.1
    let bracketRight := dec.2.2
    match identifyPattern textWithoutBrackets with
    | none => []
    | some linePatternType =>
      let targetNumberText := toStringJS cur
      let currentNumberText := toStringJS (extractNumber textWithoutBrackets linePatternType)
      let newNumberText := getNextNumber targetNumberText [] linePatternType
      (if newNumberText.isEmpty then []
       else [⟨lineFrom lines i, lineTo lines i,
              bracketLeft ++ newNumberText ++ bracketRight ++
                textWithoutBrackets.drop currentNumberText.length⟩]) ++
        walk lines remaining (i + 1) (jsAdd1 cur)

/-- `handleDelete` of `src/line.ts` lines 157-205, for one change of the
transaction.  The host-editor lookups are parameters: `deletedText` is
`startState.doc.sliceString(fromA, toA)`, `currentLineText` the text of
`doc.lineAt(fromA)`, `prevLineText` the text of `doc.lineAt(fromA - 1)`,
`lines` the post-change document lines and `nextIdx` the 1-based number
of `doc.lineAt(toB + 1)`. -/
def handleDelete (deletedText currentLineText prevLineText : List Char)
    (lines : List (List Char)) (nextIdx : Nat) : List Edit :=
  if deletedText.contains '\n' || (jsTrim currentLineText).isEmpty then
    let decNext := extractBracketsAndText (nthLine lines nextIdx)
    let textWithoutBracketsNext := decNext.2.1
    match identifyPattern textWithoutBracketsNext with
    | none => []
    | some _ =>
      let decPrev := extractBracketsAndText prevLineText
      let textWithoutBracketsPrev := decPrev.2.1
      let currentNumber : JSNum :=
        match identifyPattern textWithoutBracketsPrev,
              deletedText.contains '\n' with
        | some patternTypePrevLine, true =>
          extractNumber textWithoutBracketsPrev patternTypePrevLine
        | _, _ => some 0
      walk lines (lines.drop (nextIdx - 1)) nextIdx currentNumber
  else []

/-- `hasBrackets` of `checkForEnter` (`src/line.ts` line 269):
`bracketMatch !== null && bracketMatch[3] != undefined`. -/
def hasBracketsB (s : List Char) : Bool :=
  match execDecomp s with
  | some m => m.g3.isSome
  | none => false

/-- `currentLineText.replace(bracketPattern, '$2$4')`: the anchored match
spans the whole line (group 5 is `(.*)`), so the replacement is
`g2 ++ sep :: g5`; with no match the string is unchanged.  In
`checkForEnter` it is only applied when `hasBrackets` holds. -/
def replaceBrackets (s : List Char) : List Char :=
  match execDecomp s with
  | some m => m.g2 ++ m.sep :: m.g5
  | none => s

/-- `textWithoutBrackets` of `checkForEnter` (`src/line.ts` line 270). -/
def textWithoutBracketsOf (s : List Char) : List Char :=
  if hasBracketsB s then replaceBrackets s else s

/-- The punctuation extraction of `checkForEnter` (`src/line.ts` line
276): `text.match(/^[\w一-龥]+[\.\、]/)?.[0].slice(-1) || '.'` — the
separator right after the leading word run if the run is nonempty and a
`.`/`、` follows, else the default `'.'`. -/
def punctOf (s : List Char) : Char :=
  let run := wordRun s
  if run.isEmpty then '.'
  else
    match s.drop run.length with
    | c :: _ => if isSep2 c then c else '.'
    | [] => '.'

/-- JS `slice(-1)` of a string, as a string. -/
def sliceLast (s : List Char) : List Char :=
  match s.getLast? with
  | some c => [c]
  | none => []

/-- The condition of the "double Enter" branch of `checkForEnter`
(`src/line.ts` line 256): the decomposition regex matches the current
line with a blank group 5, and the line behind is blank. -/
def doubleEnterCond (currentLineText behindLineText : List Char) : Bool :=
  (match execDecomp currentLineText with
   | some m => (jsTrim m.g5).isEmpty
   | none => false) && (jsTrim behindLineText).isEmpty

/-- The text inserted at the new line's start by the classified branch
of `checkForEnter` (`src/line.ts` lines 275-285): the family successor
of the leading marker with the extracted punctuation, re-wrapped as
`(bracketMatch[1] + next.slice(0,-1) + bracketMatch[3]) + next.slice(-1)`
when `hasBrackets` holds AND an opening bracket was captured, followed by
a single space unless the punctuation is `'、'`. -/
def enterInsertText (currentLineText : List Char)
    (pattern : PatternType) : List Char :=
  let textWithoutBrackets := textWithoutBracketsOf currentLineText
  let currentNumber := wordRun textWithoutBrackets
  let punctuation := punctOf textWithoutBrackets
  let nextNumber := getNextNumber currentNumber [punctuation] pattern
  let nextNumber' :=
    match execDecomp currentLineText with
    | some m =>
      if hasBracketsB currentLineText && m.g1.isSome then
        optStr m.g1 ++ nextNumber.dropLast ++ optStr m.g3 ++
          sliceLast nextNumber
      else nextNumber
    | none => nextNumber
  nextNumber' ++ (if punctuation = '、' then [] else [' '])

/-- `checkForEnter` of `src/line.ts` lines 239-293, for one change of the
transaction whose inserted text is `insertedText`.  The host-editor
lookups are parameters: `currentLineText`/`behindLineText` are the texts
of `doc.lineAt(fromA)` and `doc.lineAt(toB)`, `curFrom`/`curTo` the
bounds of the current line and `behindFrom` the start offset of the line
behind (`insertPosition`). -/
def checkForEnter (insertedText currentLineText behindLineText : List Char)
    (curFrom curTo behindFrom : Nat) : List Edit :=
  if !insertedText.contains '\n' then []
  else if (jsTrim currentLineText).isEmpty then []
  else if doubleEnterCond currentLineText behindLineText then
    [⟨curFrom, curTo + 1, []⟩]
  else
    let hasBrackets := hasBracketsB currentLineText
    let textWithoutBrackets := textWithoutBracketsOf currentLineText
    match identifyPattern textWithoutBrackets with
    | none => []
    | some pattern =>
      if pattern = .arabic && !hasBrackets then []
      else
        let currentNumber := wordRun textWithoutBrackets
        if currentNumber.isEmpty then []
        else
          [⟨behindFrom, behindFrom, enterInsertText currentLineText pattern⟩]

/-- Modelled from the spec: the letter-family `encode` operation of the
Numeral Codec ("Letters: character at code `base + ordinal - 1`"), which
has no ordinal-to-string counterpart in `src/` (the source only computes
letter successors character-to-character in `getNextNumber`). -/
def encodeUppercaseLetter (ordinal : Int) : List Char :=
  [fromCharCode (('A'.toNat : Int) + ordinal - 1).toNat]

/-- A contiguous run of canonically numbered bracket-free arabic list
lines `b+1.`, `b+2.`, ... (each line is its decimal marker, a `'.'`, and
a closer-free remainder). -/
def arabicCanonRun : Nat → List (List Char) → Prop
  | _, [] => True
  | b, l :: rest =>
    (∃ r, l = natToChars (b + 1) ++ '.' :: r ∧ ∀ c ∈ r, isCloser c = false) ∧
      arabicCanonRun (b + 1) rest

/-- The situation that makes the renumbering walk stop: no line at all,
or a first line that does not classify as any marker family. -/
def runBreak : List (List Char) → Prop
  | [] => True
  | t :: _ => identifyPattern (extractBracketsAndText t).2.1 = none

/-- Round-trip check for one roman ordinal: decoding the encoding of `n`
gives `n` back. -/
def romanOk (n : Nat) : Bool :=
  romanToArabic (arabicToRoman (n : Int)) == some (n : Int)

/-- `romanOk` for the block of ordinals `base + 1 .. base + len`,
written as a linear recursion so the kernel can evaluate it. -/
def romanOkRange (base : Nat) : Nat → Bool
  | 0 => true
  | len + 1 => romanOk (base + len + 1) && romanOkRange base len

/-! ### Helper lemmas: decimal strings -/

theorem natToCharsAux_fuel (f₁ : Nat) : ∀ f₂ n, n < f₁ → n < f₂ →
    natToCharsAux f₁ n = natToCharsAux f₂ n := by
  induction f₁ using Nat.strong_induction_on with
  | _ f₁ ih =>
    intro f₂ n h₁ h₂
    match f₁, f₂ with
    | fa + 1, fb + 1 =>
      simp only [natToCharsAux]
      by_cases h : n < 10
      · simp [h]
      · simp only [h, if_neg]
        have hd : n / 10 < n := Nat.div_lt_self (by omega) (by omega)
        rw [ih fa (by omega) fb (n / 10) (by omega) (by omega)]

theorem natToChars_eq (n : Nat) :
    natToChars n = if n < 10 then [digitChar n]
      else natToChars (n / 10) ++ [digitChar (n % 10)] := by
  have h0 : natToChars n =
      if n < 10 then [digitChar n]
      else natToCharsAux n (n / 10) ++ [digitChar (n % 10)] := rfl
  rw [h0]
  by_cases h : n < 10
  · simp [h]
  · rw [if_neg h, if_neg h,
      natToCharsAux_fuel n (n / 10 + 1) (n / 10) (by omega) (by omega)]
    rfl

theorem digitChar_isDigit {d : Nat} (h : d < 10) :
    isDigitCh (digitChar d) = true := by
  interval_cases d <;> decide

theorem digitChar_toNat {d : Nat} (h : d < 10) :
    (digitChar d).toNat = 48 + d := by
  interval_cases d <;> decide

theorem natToChars_ne_nil (n : Nat) : natToChars n ≠ [] := by
  rw [natToChars_eq]
  by_cases h : n < 10 <;> simp [h]

theorem natToChars_all_digits (n : Nat) :
    ∀ c ∈ natToChars n, isDigitCh c = true := by
  induction n using Nat.strong_induction_on with
  | _ n ih =>
    rw [natToChars_eq]
    by_cases h : n < 10
    · simp only [h, if_pos, List.mem_singleton]
      rintro c rfl
      exact digitChar_isDigit h
    · simp only [h, if_neg, if_false, List.mem_append, List.mem_singleton]
      rintro c (hc | rfl)
      · exact ih (n / 10) (Nat.div_lt_self (by omega) (by omega)) c hc
      · exact digitChar_isDigit (Nat.mod_lt _ (by omega))

theorem natToChars_foldl (n : Nat) : ∀ a : Nat,
    (natToChars n).foldl (fun a c => a * 10 + (c.toNat - 48)) a =
      a * 10 ^ (natToChars n).length + n := by
  induction n using Nat.strong_induction_on with
  | _ n ih =>
    intro a
    rw [natToChars_eq]
    by_cases h : n < 10
    · simp [h, List.foldl, digitChar_toNat h]
    · have hd : n / 10 < n := Nat.div_lt_self (by omega) (by omega)
      simp only [h, if_neg, if_false, List.foldl_append, List.foldl,
        List.length_append, List.length_singleton]
      rw [ih (n / 10) hd a, digitChar_toNat (Nat.mod_lt _ (by omega))]
      have : 48 + n % 10 - 48 = n % 10 := by omega
      rw [this, pow_succ]
      have := Nat.div_add_mod n 10
      ring_nf
      omega

theorem takeWhile_all {p : Char → Bool} : ∀ l : List Char,
    (∀ c ∈ l, p c = true) → l.takeWhile p = l := by
  intro l h
  induction l with
  | nil => rfl
  | cons c t iht =>
    rw [List.takeWhile_cons, h c (by simp)]
    simp [iht fun x hx => h x (by simp [hx])]

theorem takeWhile_append_stop {p : Char → Bool} (xs : List Char) :
    ∀ ys : List Char, (∀ c ∈ xs, p c = true) →
    (∀ y t, ys = y :: t → p y = false) →
    (xs ++ ys).takeWhile p = xs := by
  induction xs with
  | nil =>
    intro ys _ hy
    cases ys with
    | nil => rfl
    | cons y t => simp [List.takeWhile_cons, hy y t rfl]
  | cons c t iht =>
    intro ys hx hy
    simp only [List.cons_append, List.takeWhile_cons, hx c (by simp)]
    simp [iht ys (fun x hx' => hx x (by simp [hx'])) hy]

theorem digitsVal_natToChars (n : Nat) : digitsVal (natToChars n) = some n := by
  have hne := natToChars_ne_nil n
  simp only [digitsVal, takeWhile_all _ (natToChars_all_digits n)]
  rw [if_neg (by simp [hne])]
  rw [natToChars_foldl n 0]
  simp

theorem natToChars_head_digit (n : Nat) :
    ∀ c t, natToChars n = c :: t → isDigitCh c = true := by
  intro c t h
  exact natToChars_all_digits n c (by rw [h]; simp)

theorem parseIntJS_natToChars (n : Nat) :
    parseIntJS (natToChars n) = some (n : Int) := by
  rcases hsplit : natToChars n with - | ⟨c, t⟩
  · exact absurd hsplit (natToChars_ne_nil n)
  · have hc : isDigitCh c = true := natToChars_head_digit n c t hsplit
    have hne : c ≠ '-' := by
      intro h
      rw [h] at hc
      exact absurd hc (by decide)
    rw [parseIntJS, if_neg hne, ← hsplit, digitsVal_natToChars n]
    rfl

theorem intToString_ofNat (n : Nat) : intToString (n : Int) = natToChars n := by
  unfold intToString
  rw [if_neg (by omega)]
  simp

theorem parseIntJS_intToString (n : Nat) :
    parseIntJS (intToString (n : Int)) = some (n : Int) := by
  rw [intToString_ofNat, parseIntJS_natToChars]

/-! ### Helper lemmas: character classes and the decomposition regex -/

theorem isDigit_not_closer {c : Char} (h : isDigitCh c = true) :
    isCloser c = false := by
  simp only [isDigitCh, Bool.and_eq_true, decide_eq_true_eq] at h
  simp only [isCloser, Bool.or_eq_false_iff, decide_eq_false_iff_not]
  omega

theorem isDigit_not_opener {c : Char} (h : isDigitCh c = true) :
    isOpener c = false := by
  simp only [isDigitCh, Bool.and_eq_true, decide_eq_true_eq] at h
  simp only [isOpener, Bool.or_eq_false_iff, decide_eq_false_iff_not]
  omega

theorem isDigit_word {c : Char} (h : isDigitCh c = true) :
    isWordChar c = true := by
  simp [isWordChar, h]

theorem isDigit_sepClass {c : Char} (h : isDigitCh c = true) :
    isSepClass c = false := by
  simp only [isDigitCh, Bool.and_eq_true, decide_eq_true_eq] at h
  simp only [isSepClass, Bool.or_eq_false_iff, decide_eq_false_iff_not]
  omega

theorem lastSepSplit_eq : ∀ s p c q,
    lastSepSplit s = some (p, c, q) → s = p ++ c :: q := by
  intro s
  induction s with
  | nil => intro p c q h; simp [lastSepSplit] at h
  | cons a t ih =>
    intro p c q h
    simp only [lastSepSplit] at h
    rcases hm : lastSepSplit t with - | ⟨p', c', q'⟩
    · rw [hm] at h
      by_cases ha : isSep2 a = true
      · simp only [ha, if_pos, Option.some.injEq, Prod.mk.injEq] at h
        obtain ⟨hp, hc, hq⟩ := h
        subst hp; subst hc; subst hq
        simp
      · simp [ha] at h
    · rw [hm] at h
      simp only [Option.some.injEq, Prod.mk.injEq] at h
      obtain ⟨hp, hc, hq⟩ := h
      subst hp; subst hc; subst hq
      have := ih p' c' q' hm
      rw [this]
      simp

theorem matchAfter_no_closer (s : List Char)
    (h : ∀ c ∈ s, isCloser c = false) :
    matchAfter s =
      (lastSepSplit s).map (fun r => (r.1, none, r.2.1, r.2.2)) := by
  unfold matchAfter
  have hrun : s.takeWhile (fun c => !isCloser c) = s :=
    takeWhile_all s (fun c hc => by simp [h c hc])
  rw [hrun]
  simp only [List.drop_length]
  rcases hm : lastSepSplit s with - | ⟨p, c, q⟩ <;> simp

theorem extract_id (s : List Char)
    (hcl : ∀ c ∈ s, isCloser c = false)
    (hop : ∀ c t, s = c :: t → isOpener c = false) :
    extractBracketsAndText s = ([], s, []) := by
  cases s with
  | nil => rfl
  | cons a t =>
    unfold extractBracketsAndText
    simp only [execDecomp, hop a t rfl, Bool.false_eq_true, if_false]
    rw [matchAfter_no_closer _ hcl]
    rcases hm : lastSepSplit (a :: t) with - | ⟨p, c, q⟩
    · simp
    · have := lastSepSplit_eq (a :: t) p c q hm
      simp [optStr, ← this]

/-! ### Helper lemmas: canonical arabic list lines -/

theorem arabicTest_canonical (n : Nat) (rest : List Char) :
    arabicTest (natToChars n ++ '.' :: rest) = true := by
  unfold arabicTest
  rw [takeWhile_append_stop (natToChars n) ('.' :: rest)
      (natToChars_all_digits n)
      (by intro y t h; cases h; decide)]
  have hne := natToChars_ne_nil n
  simp only [List.drop_left]
  simp [List.isEmpty_iff, hne, isSepClass]

theorem identify_of_arabicTest {s : List Char} (h : arabicTest s = true) :
    identifyPattern s = some .arabic := by
  simp [identifyPattern, patterns, List.find?, h]

theorem wordRun_canonical (n : Nat) (rest : List Char) :
    wordRun (natToChars n ++ '.' :: rest) = natToChars n := by
  unfold wordRun
  rw [takeWhile_append_stop (natToChars n) ('.' :: rest)
      (fun c hc => isDigit_word (natToChars_all_digits n c hc))
      (by intro y t h; cases h; decide)]

theorem extractNumber_canonical (n : Nat) (rest : List Char) :
    extractNumber (natToChars n ++ '.' :: rest) .arabic = some (n : Int) := by
  unfold extractNumber
  rw [wordRun_canonical n rest]
  rw [if_neg (by simp [List.isEmpty_iff, natToChars_ne_nil n])]
  exact parseIntJS_natToChars n

theorem toStringJS_ofNat (n : Nat) :
    toStringJS (some (n : Int)) = natToChars n := by
  simp [toStringJS, intToString_ofNat]

theorem getNextNumber_arabic_nat (b : Nat) :
    getNextNumber (natToChars b) [] .arabic = natToChars (b + 1) := by
  have h1 : getNextNumber (natToChars b) [] .arabic =
      toStringJS (jsAdd1 (parseIntJS (natToChars b))) ++ [] := rfl
  rw [h1, parseIntJS_natToChars]
  have h2 : jsAdd1 (some (b : Int)) = some ((b : Int) + 1) := rfl
  rw [h2]
  have h3 : (b : Int) + 1 = ((b + 1 : Nat) : Int) := by push_cast; ring
  rw [h3, toStringJS_ofNat, List.append_nil]

theorem canon_line_not_closer (n : Nat) (rest : List Char)
    (hr : ∀ c ∈ rest, isCloser c = false) :
    ∀ c ∈ natToChars n ++ '.' :: rest, isCloser c = false := by
  intro c hc
  rcases List.mem_append.mp hc with h | h
  · exact isDigit_not_closer (natToChars_all_digits n c h)
  · rcases List.mem_cons.mp h with rfl | h
    · decide
    · exact hr c h

theorem extract_canonical (n : Nat) (rest : List Char)
    (hr : ∀ c ∈ rest, isCloser c = false) :
    extractBracketsAndText (natToChars n ++ '.' :: rest) =
      ([], natToChars n ++ '.' :: rest, []) := by
  apply extract_id _ (canon_line_not_closer n rest hr)
  intro c t h
  have hd : isDigitCh c = true := by
    rcases hsplit : natToChars n with - | ⟨d, ds⟩
    · exact absurd hsplit (natToChars_ne_nil n)
    · rw [hsplit] at h
      simp only [List.cons_append, List.cons.injEq] at h
      rw [← h.1]
      exact natToChars_head_digit n d ds hsplit
  exact isDigit_not_opener hd

/-! ### The renumbering walk on canonical arabic runs -/

theorem walk_break (lines : List (List Char)) (tail : List (List Char))
    (i : Nat) (cur : JSNum) (h : runBreak tail) :
    walk lines tail i cur = [] := by
  cases tail with
  | nil => rfl
  | cons t ts =>
    have h' : identifyPattern (extractBracketsAndText t).2.1 = none := h
    simp only [walk, h']

theorem walk_arabic_run (lines : List (List Char)) :
    ∀ (run : List (List Char)) (tail : List (List Char)) (i b : Nat),
    arabicCanonRun b run → runBreak tail →
    walk lines (run ++ tail) i (some (b : Int)) =
      (List.range run.length).map
        (fun j => ⟨lineFrom lines (i + j), lineTo lines (i + j),
                   run.getD j []⟩) := by
  intro run
  induction run with
  | nil =>
    intro tail i b _ htail
    simpa using walk_break lines tail i (some (b : Int)) htail
  | cons l rest ih =>
    intro tail i b hrun htail
    obtain ⟨⟨r, hl, hr⟩, hrest⟩ := hrun
    subst hl
    have hdec := extract_canonical (b + 1) r hr
    have hid : identifyPattern (natToChars (b + 1) ++ '.' :: r) =
        some .arabic :=
      identify_of_arabicTest (arabicTest_canonical (b + 1) r)
    rw [List.cons_append]
    simp only [walk, hdec, hid]
    rw [extractNumber_canonical (b + 1) r, toStringJS_ofNat b,
      toStringJS_ofNat (b + 1), getNextNumber_arabic_nat b]
    rw [if_neg (by simp [List.isEmpty_iff, natToChars_ne_nil (b + 1)])]
    have hadd : jsAdd1 (some (b : Int)) = some (((b + 1 : Nat)) : Int) := by
      simp [jsAdd1]
    rw [hadd, ih tail (i + 1) (b + 1) hrest htail]
    rw [List.drop_left]
    simp only [List.nil_append, List.append_nil]
    rw [List.length_cons, List.range_succ_eq_map, List.map_cons,
      List.map_map, List.singleton_append]
    congr 1
    simp only [List.map_inj_left, Function.comp_apply, List.getD_cons_succ,
      Edit.mk.injEq]
    intro a _
    have ha : i + 1 + a = i + (a + 1) := by omega
    rw [ha]
    exact ⟨rfl, rfl, trivial⟩

theorem nthLine_of_drop (lines : List (List Char)) (k : Nat)
    (x : List Char) (xs : List (List Char)) (h : lines.drop k = x :: xs) :
    nthLine lines (k + 1) = x := by
  unfold nthLine
  have h0 : lines[k]? = some x := by
    have hd := List.getElem?_drop lines k 0
    rw [h] at hd
    simpa using hd.symm
  simp [List.getD_eq_getElem?_getD, h0]

theorem nthLine_of_drop_nil (lines : List (List Char)) (k : Nat)
    (h : lines.drop k = []) : nthLine lines (k + 1) = [] := by
  unfold nthLine
  have h0 : lines[k]? = none := by
    have hd := List.getElem?_drop lines k 0
    rw [h] at hd
    simpa using hd.symm
  simp [List.getD_eq_getElem?_getD, h0]

theorem nthLine_align (lines run tail : List (List Char)) (k : Nat)
    (h : lines.drop k = run ++ tail) :
    ∀ j < run.length, nthLine lines (k + 1 + j) = run.getD j [] := by
  intro j hj
  unfold nthLine
  have hk : k + 1 + j - 1 = k + j := by omega
  rw [hk, List.getD_eq_getElem?_getD, ← List.getElem?_drop, h,
    List.getElem?_append, if_pos hj, ← List.getD_eq_getElem?_getD]

/-- C3 (amended): the delete-path synthesizer is idempotent on canonical
bracket-free ARABIC runs: when the merge point sits before a run of lines
`b+1. …`, `b+2. …`, …, the line before the deletion being the canonical
arabic line `b. …` and the deleted span containing a newline, every edit
the walk produces re-inserts exactly the text the target line already
has (no spontaneous text change).  For letter and Chinese runs the claim
fails — see the counterexample, where a correctly numbered letter run is
rewritten. -/
theorem C3_delete_idempotent
    (deletedText currentLineText prevLineText : List Char)
    (lines run tail : List (List Char)) (nextIdx b : Nat) (pr : List Char)
    (hnl : deletedText.contains '\n' = true)
    (hprev : prevLineText = natToChars b ++ '.' :: pr)
    (hpr : ∀ c ∈ pr, isCloser c = false)
    (hidx : 1 ≤ nextIdx)
    (halign : lines.drop (nextIdx - 1) = run ++ tail)
    (hrun : arabicCanonRun b run)
    (htail : runBreak tail) :
    handleDelete deletedText currentLineText prevLineText lines nextIdx =
      (List.range run.length).map
        (fun j => ⟨lineFrom lines (nextIdx + j), lineTo lines (nextIdx + j),
                   nthLine lines (nextIdx + j)⟩) := by
  obtain ⟨k, rfl⟩ : ∃ k, nextIdx = k + 1 := ⟨nextIdx - 1, by omega⟩
  have hk1 : k + 1 - 1 = k := by omega
  rw [hk1] at halign
  have halignD : ∀ j < run.length, nthLine lines (k + 1 + j) = run.getD j [] :=
    nthLine_align lines run tail k halign
  subst hprev
  have hdecPrev := extract_canonical b pr hpr
  have hidPrev : identifyPattern (natToChars b ++ '.' :: pr) = some .arabic :=
    identify_of_arabicTest (arabicTest_canonical b pr)
  cases run with
  | nil =>
    simp only [List.nil_append] at halign
    have hnext : identifyPattern
        (extractBracketsAndText (nthLine lines (k + 1))).2.1 = none := by
      cases tail with
      | nil =>
        rw [nthLine_of_drop_nil lines k halign]
        decide
      | cons t ts =>
        rw [nthLine_of_drop lines k t ts halign]
        exact htail
    simp only [handleDelete, hnl, Bool.true_or, if_pos, hk1, hnext]
    simp
  | cons l run' =>
    obtain ⟨⟨r, hl, hr⟩, hrun'⟩ := hrun
    have hhead : nthLine lines (k + 1) = l :=
      nthLine_of_drop lines k l (run' ++ tail) (by simpa using halign)
    have hdecNext : extractBracketsAndText (nthLine lines (k + 1)) =
        ([], l, []) := by rw [hhead, hl]; exact extract_canonical (b + 1) r hr
    have hidNext : identifyPattern
        (extractBracketsAndText (nthLine lines (k + 1))).2.1 =
        some .arabic := by
      rw [hdecNext]
      rw [hl]
      exact identify_of_arabicTest (arabicTest_canonical (b + 1) r)
    simp only [handleDelete, hnl, Bool.true_or, if_pos, hk1, hidNext,
      hdecPrev, hidPrev]
    rw [extractNumber_canonical b pr, halign,
      walk_arabic_run lines (l :: run') tail (k + 1) b ⟨⟨r, hl, hr⟩, hrun'⟩
        htail]
    apply List.map_congr_left
    intro j hj
    rw [List.mem_range] at hj
    rw [halignD j hj]

/-! ### Roman round trip over the canonical range 1..3999 -/

set_option maxRecDepth 20000 in
set_option maxHeartbeats 4000000 in
theorem romanOk_chunk0 : romanOkRange 0 1000 = true := by decide

set_option maxRecDepth 20000 in
set_option maxHeartbeats 4000000 in
theorem romanOk_chunk1 : romanOkRange 1000 1000 = true := by decide

set_option maxRecDepth 20000 in
set_option maxHeartbeats 4000000 in
theorem romanOk_chunk2 : romanOkRange 2000 1000 = true := by decide

set_option maxRecDepth 20000 in
set_option maxHeartbeats 4000000 in
theorem romanOk_chunk3 : romanOkRange 3000 1000 = true := by decide

theorem romanOkRange_spec (base : Nat) : ∀ len : Nat,
    romanOkRange base len = true → ∀ j < len, romanOk (base + j + 1) = true := by
  intro len
  induction len with
  | zero => intro _ j hj; omega
  | succ len ih =>
    intro h j hj
    have h' : romanOk (base + len + 1) = true ∧ romanOkRange base len = true := by
      simpa [romanOkRange, Bool.and_eq_true] using h
    by_cases hje : j = len
    · subst hje; exact h'.1
    · exact ih h'.2 j (by omega)

theorem roman_round_trip (n : Nat) (h1 : 1 ≤ n) (h2 : n ≤ 3999) :
    romanToArabic (arabicToRoman (n : Int)) = some (n : Int) := by
  have hok : romanOk n = true := by
    rcases Nat.lt_or_ge n 1001 with h | h
    · have hj := romanOkRange_spec 0 1000 romanOk_chunk0 (n - 1) (by omega)
      have heq : 0 + (n - 1) + 1 = n := by omega
      rw [heq] at hj
      exact hj
    · rcases Nat.lt_or_ge n 2001 with h' | h'
      · have hj := romanOkRange_spec 1000 1000 romanOk_chunk1 (n - 1001) (by omega)
        have heq : 1000 + (n - 1001) + 1 = n := by omega
        rw [heq] at hj
        exact hj
      · rcases Nat.lt_or_ge n 3001 with h'' | h''
        · have hj := romanOkRange_spec 2000 1000 romanOk_chunk2 (n - 2001) (by omega)
          have heq : 2000 + (n - 2001) + 1 = n := by omega
          rw [heq] at hj
          exact hj
        · have hj := romanOkRange_spec 3000 1000 romanOk_chunk3 (n - 3001) (by omega)
          have heq : 3000 + (n - 3001) + 1 = n := by omega
          rw [heq] at hj
          exact hj
  simpa [romanOk, beq_iff_eq] using hok

/-! ### Claim C1 -/

/-- C1 (amended): the codec round-trip law
`encode(decode(encode(n, f)), f) = encode(n, f)` holds for the arabic
family (any ordinal `n ≥ 1`, `encode` = decimal `toString`, `decode` =
`parseInt`), for the roman family (canonical range `1..3999`, `encode` =
`arabicToRoman`, `decode` = `romanToArabic`), and for the Chinese family
(`1..10`).  It does NOT hold for the letter families, whose `decode`
(`extractNumber`) returns the raw character code rather than the alphabet
position — see the counterexample. -/
theorem C1_codec_round_trip (n : Nat) :
    (1 ≤ n →
      toStringJS (parseIntJS (intToString (n : Int))) = intToString (n : Int)) ∧
    (1 ≤ n → n ≤ 3999 →
      arabicToRomanJS (romanToArabic (arabicToRoman (n : Int))) =
        arabicToRoman (n : Int)) ∧
    (1 ≤ n → n ≤ 10 →
      arabicToChinese (chineseToArabic (arabicToChinese (n : Int))) =
        arabicToChinese (n : Int)) := by
  refine ⟨fun _ => ?_, fun h1 h2 => ?_, fun h1 h2 => ?_⟩
  · rw [parseIntJS_intToString]
    rfl
  · rw [roman_round_trip n h1 h2]
    rfl
  · interval_cases n <;> decide

/-- C1 witness: the three round trips at the concrete ordinal 3. -/
theorem C1_witness :
    toStringJS (parseIntJS (intToString ((3 : Nat) : Int))) =
      intToString ((3 : Nat) : Int) ∧
    arabicToRomanJS (romanToArabic (arabicToRoman ((3 : Nat) : Int))) =
      arabicToRoman ((3 : Nat) : Int) ∧
    arabicToChinese (chineseToArabic (arabicToChinese ((3 : Nat) : Int))) =
      arabicToChinese ((3 : Nat) : Int) := by
  obtain ⟨h1, h2, h3⟩ := C1_codec_round_trip 3
  exact ⟨h1 (by decide), h2 (by decide) (by decide),
    h3 (by decide) (by decide)⟩

/-- C1 counterexample: for the uppercase-letter family the round trip
fails at ordinal 1: `encode 1 = "A"`, but the code's decode
(`extractNumber`) returns the raw character code 65, and re-encoding 65
gives the character with code 129, not `"A"`. -/
theorem C1_letters_counterexample :
    extractNumber (encodeUppercaseLetter 1) .uppercaseLetter = some 65 ∧
    encodeUppercaseLetter
        ((extractNumber (encodeUppercaseLetter 1) .uppercaseLetter).getD 0) =
      [Char.ofNat 129] ∧
    encodeUppercaseLetter 1 = ['A'] ∧
    ([Char.ofNat 129] : List Char) ≠ ['A'] := by
  decide

/-! ### Claim C5 -/

/-- C5: `identifyPattern` tests the five families in the fixed priority
order arabic, uppercaseLetter, lowercaseLetter, romanNumeral,
chineseNumeral and returns the first match; in particular `"C."` matches
both the uppercase-letter and roman-numeral grammars and is classified
`uppercaseLetter`. -/
theorem C5_first_match_priority :
    upperTest ['C', '.'] = true ∧ romanTest ['C', '.'] = true ∧
    identifyPattern ['C', '.'] = some .uppercaseLetter ∧
    ∀ s : List Char, identifyPattern s =
      (if arabicTest s then some .arabic
       else if upperTest s then some .uppercaseLetter
       else if lowerTest s then some .lowercaseLetter
       else if romanTest s then some .romanNumeral
       else if chineseTest s then some .chineseNumeral
       else none) := by
  refine ⟨by decide, by decide, by decide, fun s => ?_⟩
  by_cases h1 : arabicTest s = true
  · simp [identifyPattern, patterns, List.find?, h1]
  · by_cases h2 : upperTest s = true
    · simp [identifyPattern, patterns, List.find?, h1, h2]
    · by_cases h3 : lowerTest s = true
      · simp [identifyPattern, patterns, List.find?, h1, h2, h3]
      · by_cases h4 : romanTest s = true
        · simp [identifyPattern, patterns, List.find?, h1, h2, h3, h4]
        · by_cases h5 : chineseTest s = true
          · simp [identifyPattern, patterns, List.find?, h1, h2, h3, h4, h5]
          · simp [identifyPattern, patterns, List.find?, h1, h2, h3, h4, h5]

/-! ### Claim C9 -/

/-- C9 (amended): for a well-formed letter marker the decode operation
`extractNumber` returns the RAW character code (`'A'` gives 65, `'c'`
gives 99), i.e. the 1-based alphabet position plus 64 (uppercase)
respectively plus 96 (lowercase) — not the alphabet position itself as
the spec claims. -/
theorem C9_letters_decode_raw_code (c : Char) (rest : List Char) :
    (isUpperAZ c = true →
      extractNumber (c :: '.' :: rest) .uppercaseLetter =
        some (c.toNat : Int) ∧
      (c.toNat : Int) = ((c.toNat - 'A'.toNat + 1 : Nat) : Int) + 64) ∧
    (isLowerAZ c = true →
      extractNumber (c :: '.' :: rest) .lowercaseLetter =
        some (c.toNat : Int) ∧
      (c.toNat : Int) = ((c.toNat - 'a'.toNat + 1 : Nat) : Int) + 96) := by
  constructor
  · intro h
    have hw : isWordChar c = true := by simp [isWordChar, h]
    have hb : 65 ≤ c.toNat ∧ c.toNat ≤ 90 := by
      simpa [isUpperAZ, Bool.and_eq_true, decide_eq_true_eq] using h
    constructor
    · simp [extractNumber, wordRun, List.takeWhile_cons, hw,
        show isWordChar '.' = false by decide, charCodeAt0]
    · have hA : 'A'.toNat = 65 := rfl
      rw [hA]
      push_cast
      omega
  · intro h
    have hw : isWordChar c = true := by simp [isWordChar, h]
    have hb : 97 ≤ c.toNat ∧ c.toNat ≤ 122 := by
      simpa [isLowerAZ, Bool.and_eq_true, decide_eq_true_eq] using h
    constructor
    · simp [extractNumber, wordRun, List.takeWhile_cons, hw,
        show isWordChar '.' = false by decide, charCodeAt0]
    · have ha : 'a'.toNat = 97 := rfl
      rw [ha]
      push_cast
      omega

/-- C9 witness: `extractNumber "A." = 65` and `extractNumber "c." = 99`,
with the stated relation to the alphabet position. -/
theorem C9_witness :
    extractNumber ['A', '.'] .uppercaseLetter = some (('A').toNat : Int) ∧
    extractNumber ['c', '.'] .lowercaseLetter = some (('c').toNat : Int) := by
  exact ⟨((C9_letters_decode_raw_code 'A' []).1 (by decide)).1,
    ((C9_letters_decode_raw_code 'c' []).2 (by decide)).1⟩

/-- C9 counterexample: the claim says `decode("A.") = 1` and
`decode("c.") = 3`; the code returns 65 and 99. -/
theorem C9_counterexample :
    extractNumber ['A', '.'] .uppercaseLetter = some 65 ∧
    (some 65 : JSNum) ≠ some 1 ∧
    extractNumber ['c', '.'] .lowercaseLetter = some 99 ∧
    (some 99 : JSNum) ≠ some 3 := by
  decide

/-! ### Claim C10 -/

/-- C10: the roman-numeral grammar accepts the empty symbol sequence, so
a line starting directly with a separator (`'.'` or `'、'`) — which no
earlier family can match, since those require a digit or letter first —
is classified `romanNumeral`, not `null`. -/
theorem C10_sep_only_roman (rest : List Char) :
    identifyPattern ('.' :: rest) = some .romanNumeral ∧
    identifyPattern ('、' :: rest) = some .romanNumeral := by
  cases rest with
  | nil => exact ⟨rfl, rfl⟩
  | cons b t => exact ⟨rfl, rfl⟩

/-! ### Claim C2 -/

/-- C2 (amended): the delete-path walk stops exactly at the first line
that fails to classify — appending anything after a break point changes
nothing — but it does NOT require successive lines to have the SAME
family as the first line of the run: any classified line continues the
run (see the counterexample, where an uppercase-letter line is relabeled
inside a run started by an arabic line). -/
theorem C2_walk_stops (lines : List (List Char)) (pre tail : List (List Char))
    (i : Nat) (cur : JSNum) (htail : runBreak tail) :
    walk lines (pre ++ tail) i cur = walk lines pre i cur := by
  induction pre generalizing i cur with
  | nil => simpa using walk_break lines tail i cur htail
  | cons l pre' ih =>
    rw [List.cons_append]
    rcases hid : identifyPattern (extractBracketsAndText l).2.1 with - | pt
    · simp only [walk, hid]
    · simp only [walk, hid]
      rw [ih]

/-- C2 witness: the walk over a mixed arabic/letter run followed by an
unclassified line `"y"` (and a further list line `"3. c"` beyond it)
equals the walk over the run alone: nothing after the break is touched. -/
theorem C2_witness :
    walk [['x'], ['1', '.', ' ', 'a'], ['A', '.', ' ', 'b'], ['y'],
          ['3', '.', ' ', 'c']]
        ([['1', '.', ' ', 'a'], ['A', '.', ' ', 'b']] ++
          [['y'], ['3', '.', ' ', 'c']]) 2 (some 0) =
      walk [['x'], ['1', '.', ' ', 'a'], ['A', '.', ' ', 'b'], ['y'],
          ['3', '.', ' ', 'c']]
        [['1', '.', ' ', 'a'], ['A', '.', ' ', 'b']] 2 (some 0) := by
  exact C2_walk_stops _ _ _ 2 (some 0)
    (show identifyPattern (extractBracketsAndText ['y']).2.1 = none by decide)

/-- C2 counterexample: after a deletion the walk starts on the arabic
line `"1. a"`, and the next line `"A. b"` — a DIFFERENT family
(uppercase letter) — is still relabeled (to `"2 b"`) instead of ending
the run, refuting "a line of a different family than the first is never
relabeled as part of the run". -/
theorem C2_counterexample :
    identifyPattern
        (extractBracketsAndText ['1', '.', ' ', 'a']).2.1 = some .arabic ∧
    identifyPattern
        (extractBracketsAndText ['A', '.', ' ', 'b']).2.1 =
      some .uppercaseLetter ∧
    handleDelete ['\n'] ['z'] ['x']
        [['x'], ['1', '.', ' ', 'a'], ['A', '.', ' ', 'b']] 2 =
      [⟨2, 6, ['1', '.', ' ', 'a']⟩, ⟨7, 11, ['2', ' ', 'b']⟩] := by
  decide

/-! ### Claims C3 and C4: witnesses and counterexamples -/

/-- C3 witness: deleting a newline in front of the canonical arabic run
`"2. b"` (previous line `"1. a"`, run followed by the unclassified line
`"x"`) produces exactly one edit, and it re-inserts the unchanged text
`"2. b"`. -/
theorem C3_witness :
    handleDelete ['\n'] ['1', '.', ' ', 'a'] ['1', '.', ' ', 'a']
        [['1', '.', ' ', 'a'], ['2', '.', ' ', 'b'], ['x']] 2 =
      [⟨5, 9, ['2', '.', ' ', 'b']⟩] := by
  have h := C3_delete_idempotent ['\n'] ['1', '.', ' ', 'a']
      ['1', '.', ' ', 'a']
      [['1', '.', ' ', 'a'], ['2', '.', ' ', 'b'], ['x']]
      [['2', '.', ' ', 'b']] [['x']] 2 1 [' ', 'a']
      (by decide) (by decide) (by decide) (by decide) (by decide)
      ⟨⟨[' ', 'b'], by decide, by decide⟩, trivial⟩
      (show identifyPattern (extractBracketsAndText ['x']).2.1 = none
        by decide)
  rw [h]
  decide

/-- C3 counterexample: the document `"A. a"` / `"B. b"` is a correctly
and contiguously numbered letter run, yet the delete path rewrites the
second line to `"7 b"` — a spontaneous text-changing edit (the decoded
char code 66 is stringified to `"66"`, its first character incremented,
and two characters sliced off the line). -/
theorem C3_counterexample :
    handleDelete ['\n'] ['A', '.', ' ', 'a'] ['A', '.', ' ', 'a']
        [['A', '.', ' ', 'a'], ['B', '.', ' ', 'b']] 2 =
      [⟨5, 9, ['7', ' ', 'b']⟩] ∧
    nthLine [['A', '.', ' ', 'a'], ['B', '.', ' ', 'b']] 2 =
      ['B', '.', ' ', 'b'] ∧
    (['7', ' ', 'b'] : List Char) ≠ ['B', '.', ' ', 'b'] := by
  decide

/-! ### Claim C4 -/

theorem getNextNumber_arabic_int (v : Int) (hv : 0 ≤ v) :
    getNextNumber (toStringJS (some v)) [] .arabic =
      natToChars (v.toNat + 1) := by
  obtain ⟨n, rfl⟩ : ∃ n : Nat, v = (n : Int) :=
    ⟨v.toNat, (Int.toNat_of_nonneg hv).symm⟩
  rw [toStringJS_ofNat, getNextNumber_arabic_nat]
  simp

theorem walk_arabic_single (lines : List (List Char))
    (tail : List (List Char)) (i : Nat) (v : Int) (hv : 0 ≤ v)
    (m : Nat) (rest : List Char)
    (hrest : ∀ c ∈ rest, isCloser c = false) (htail : runBreak tail) :
    walk lines ((natToChars m ++ '.' :: rest) :: tail) i (some v) =
      [⟨lineFrom lines i, lineTo lines i,
        natToChars (v.toNat + 1) ++ '.' :: rest⟩] := by
  simp only [walk, extract_canonical m rest hrest,
    identify_of_arabicTest (arabicTest_canonical m rest)]
  rw [extractNumber_canonical m rest, toStringJS_ofNat m,
    getNextNumber_arabic_int v hv]
  rw [if_neg (by simp [List.isEmpty_iff, natToChars_ne_nil (v.toNat + 1)])]
  rw [List.drop_left, walk_break lines tail (i + 1) _ htail]
  simp

/-- C4 (amended): for a delete event whose next line is the canonical
arabic line `m. rest`, the renumbering base continues from the previous
line's decoded ordinal `v` (first edit inserts `v+1`) whenever the
previous line classifies as ANY family — not only the same family as the
claim states — and the deleted span contains a newline; the count
restarts at 0 (first edit inserts `1`) when the previous line is
unclassified, and also — even for a classified previous line — when the
deleted span contains no newline (blank-current-line trigger). -/
theorem C4_base_ordinal
    (deletedText currentLineText prevLineText : List Char)
    (lines tail : List (List Char)) (nextIdx m : Nat) (rest : List Char)
    (hidx : 1 ≤ nextIdx)
    (halign : lines.drop (nextIdx - 1) =
      (natToChars m ++ '.' :: rest) :: tail)
    (hrest : ∀ c ∈ rest, isCloser c = false)
    (htail : runBreak tail) :
    (∀ p v, identifyPattern (extractBracketsAndText prevLineText).2.1 =
        some p →
      extractNumber (extractBracketsAndText prevLineText).2.1 p = some v →
      0 ≤ v →
      deletedText.contains '\n' = true →
      handleDelete deletedText currentLineText prevLineText lines nextIdx =
        [⟨lineFrom lines nextIdx, lineTo lines nextIdx,
          natToChars (v.toNat + 1) ++ '.' :: rest⟩]) ∧
    (identifyPattern (extractBracketsAndText prevLineText).2.1 = none →
      (deletedText.contains '\n' = true ∨
        (jsTrim currentLineText).isEmpty = true) →
      handleDelete deletedText currentLineText prevLineText lines nextIdx =
        [⟨lineFrom lines nextIdx, lineTo lines nextIdx,
          natToChars 1 ++ '.' :: rest⟩]) ∧
    (∀ p, identifyPattern (extractBracketsAndText prevLineText).2.1 =
        some p →
      deletedText.contains '\n' = false →
      (jsTrim currentLineText).isEmpty = true →
      handleDelete deletedText currentLineText prevLineText lines nextIdx =
        [⟨lineFrom lines nextIdx, lineTo lines nextIdx,
          natToChars 1 ++ '.' :: rest⟩]) := by
  obtain ⟨k, rfl⟩ : ∃ k, nextIdx = k + 1 := ⟨nextIdx - 1, by omega⟩
  have hk1 : k + 1 - 1 = k := by omega
  rw [hk1] at halign
  have hhead : nthLine lines (k + 1) = natToChars m ++ '.' :: rest :=
    nthLine_of_drop lines k _ tail halign
  have hidNext : identifyPattern
      (extractBracketsAndText (nthLine lines (k + 1))).2.1 =
      some .arabic := by
    rw [hhead, extract_canonical m rest hrest]
    exact identify_of_arabicTest (arabicTest_canonical m rest)
  refine ⟨fun p v hp hv hv0 hnl => ?_, fun hp hguard => ?_,
    fun p hp hnn hblank => ?_⟩
  · simp only [handleDelete, hnl, Bool.true_or, if_pos, hk1, hidNext, hp]
    rw [hv, halign, walk_arabic_single lines tail (k + 1) v hv0 m rest
      hrest htail]
  · have hguard' : (deletedText.contains '\n' ||
        (jsTrim currentLineText).isEmpty) = true := by
      rcases hguard with h | h
      · rw [h, Bool.true_or]
      · rw [h, Bool.or_true]
    simp only [handleDelete, hguard', if_pos, hk1, hidNext, hp]
    rw [halign, walk_arabic_single lines tail (k + 1) 0 (by omega) m rest
      hrest htail]
    rfl
  · simp only [handleDelete, hnn, hblank, Bool.false_or, if_pos, hk1,
      hidNext, hp]
    rw [halign, walk_arabic_single lines tail (k + 1) 0 (by omega) m rest
      hrest htail]
    rfl

/-- C4 witness: previous line `"A. x"` (uppercase letter, decoded raw
code 65), next line `"1. y"` (arabic), deleted span containing a
newline: the single produced edit renumbers to `"66. y"`, continuing
from 65 + 1 across the family change. -/
theorem C4_witness :
    handleDelete ['\n'] ['z'] ['x']
        [['x'], ['1', '.', ' ', 'y']] 2 =
      [⟨2, 6, ['1', '.', ' ', 'y']⟩] := by
  have h := (C4_base_ordinal ['\n'] ['z'] ['x']
      [['x'], ['1', '.', ' ', 'y']] [] 2 1 [' ', 'y']
      (by decide) (by decide) (by decide) trivial).2.1
      (by decide) (Or.inl (by decide))
  rw [h]
  decide

/-- C4 counterexample: the claim requires the previous line to be of
the SAME family for the count to continue, and a restart "in every other
case"; here the previous line `"A. x"` is uppercase-letter while the
next line `"1. y"` is arabic — a different family — yet the count does
not restart: the edit inserts `"66. y"` (65 + 1), not `"1. y"`. -/
theorem C4_counterexample :
    identifyPattern
        (extractBracketsAndText ['A', '.', ' ', 'x']).2.1 =
      some .uppercaseLetter ∧
    identifyPattern
        (extractBracketsAndText ['1', '.', ' ', 'y']).2.1 = some .arabic ∧
    handleDelete ['\n'] ['z'] ['A', '.', ' ', 'x']
        [['A', '.', ' ', 'x'], ['1', '.', ' ', 'y']] 2 =
      [⟨5, 9, ['6', '6', '.', ' ', 'y']⟩] := by
  decide

/-! ### Claims C6, C7, C8: the Enter path -/

theorem getNextNumber_ne_nil (cn : List Char) (p : Char)
    (pt : PatternType) : getNextNumber cn [p] pt ≠ [] := by
  cases pt <;> simp [getNextNumber]

theorem enterInsertText_ne_nil (currentLineText : List Char)
    (pt : PatternType) : enterInsertText currentLineText pt ≠ [] := by
  unfold enterInsertText
  rcases hm : execDecomp currentLineText with - | m
  · simp only [hm]
    intro h
    rw [List.append_eq_nil] at h
    exact getNextNumber_ne_nil _ _ _ h.1
  · simp only [hm]
    by_cases hc : (hasBracketsB currentLineText && m.g1.isSome) = true
    · rw [if_pos hc]
      have hg1 : m.g1.isSome = true := by
        rw [Bool.and_eq_true] at hc
        exact hc.2
      obtain ⟨o, ho⟩ := Option.isSome_iff_exists.mp hg1
      rw [ho]
      simp [optStr]
    · rw [if_neg hc]
      intro h
      rw [List.append_eq_nil] at h
      exact getNextNumber_ne_nil _ _ _ h.1

/-- C7: a "double Enter" — the current line decomposes with a blank
body-after-marker (group 5) and the new line behind is blank — produces
exactly one edit, deleting the current line together with its trailing
newline (`from` = line start, `to` = line end + 1, empty insert); no
continuation marker is produced. -/
theorem C7_double_enter_deletes_line
    (insertedText currentLineText behindLineText : List Char)
    (curFrom curTo behindFrom : Nat) (m : DecompM)
    (hnl : insertedText.contains '\n' = true)
    (hblank : (jsTrim currentLineText).isEmpty = false)
    (hexec : execDecomp currentLineText = some m)
    (hg5 : (jsTrim m.g5).isEmpty = true)
    (hbehind : (jsTrim behindLineText).isEmpty = true) :
    checkForEnter insertedText currentLineText behindLineText
        curFrom curTo behindFrom = [⟨curFrom, curTo + 1, []⟩] := by
  have hde : doubleEnterCond currentLineText behindLineText = true := by
    simp [doubleEnterCond, hexec, hg5, hbehind]
  simp [checkForEnter, hnl, hblank, hde]
  simpa using hnl

/-- C7 witness: Enter after `"3. "` with a blank next line deletes the
`"3. "` line (offsets 0-3 plus the newline). -/
theorem C7_witness :
    checkForEnter ['\n'] ['3', '.', ' '] [] 0 3 4 = [⟨0, 4, []⟩] :=
  C7_double_enter_deletes_line ['\n'] ['3', '.', ' '] [] 0 3 4
    ⟨none, ['3'], none, '.', [' ']⟩
    (by decide) (by decide) (by decide) (by decide) (by decide)

/-- C6 (amended): on the Enter path, past the blank-line and
double-Enter guards: a line classified arabic WITHOUT brackets produces
no edit; any other classified line produces one next-marker insertion at
the next line's start offset — PROVIDED the classified text has a
nonempty leading word-character run (`currentNumber`); a line that
classifies but has no extractable marker (the empty roman match of
separator-first lines) also produces no edit, which the original claim
misses. -/
theorem C6_enter_arabic_skip
    (insertedText currentLineText behindLineText : List Char)
    (curFrom curTo behindFrom : Nat)
    (hnl : insertedText.contains '\n' = true)
    (hblank : (jsTrim currentLineText).isEmpty = false)
    (hde : doubleEnterCond currentLineText behindLineText = false) :
    (identifyPattern (textWithoutBracketsOf currentLineText) =
        some .arabic →
      hasBracketsB currentLineText = false →
      checkForEnter insertedText currentLineText behindLineText
        curFrom curTo behindFrom = []) ∧
    (∀ pt, identifyPattern (textWithoutBracketsOf currentLineText) =
        some pt →
      (pt ≠ .arabic ∨ hasBracketsB currentLineText = true) →
      (wordRun (textWithoutBracketsOf currentLineText)).isEmpty = false →
      checkForEnter insertedText currentLineText behindLineText
          curFrom curTo behindFrom =
        [⟨behindFrom, behindFrom, enterInsertText currentLineText pt⟩] ∧
      enterInsertText currentLineText pt ≠ []) ∧
    (∀ pt, identifyPattern (textWithoutBracketsOf currentLineText) =
        some pt →
      (wordRun (textWithoutBracketsOf currentLineText)).isEmpty = true →
      checkForEnter insertedText currentLineText behindLineText
        curFrom curTo behindFrom = []) := by
  have hbase : checkForEnter insertedText currentLineText behindLineText
      curFrom curTo behindFrom =
      (match identifyPattern (textWithoutBracketsOf currentLineText) with
       | none => []
       | some pattern =>
         if pattern = .arabic && !hasBracketsB currentLineText then []
         else if (wordRun (textWithoutBracketsOf currentLineText)).isEmpty
           then []
         else [⟨behindFrom, behindFrom,
                enterInsertText currentLineText pattern⟩]) := by
    simp only [checkForEnter, hnl, Bool.not_true, Bool.false_eq_true,
      if_false, hblank, hde]
  refine ⟨fun hpat hbr => ?_, fun pt hpat hor hrun => ?_,
    fun pt hpat hrun => ?_⟩
  · rw [hbase, hpat]
    simp [hbr]
  · have hskip : (decide (pt = PatternType.arabic) &&
        !hasBracketsB currentLineText) = false := by
      rcases hor with h | h
      · simp [h]
      · simp [h]
    rw [hbase, hpat]
    simp only [hskip, Bool.false_eq_true, if_false, hrun]
    exact ⟨trivial, enterInsertText_ne_nil currentLineText pt⟩
  · rw [hbase, hpat]
    by_cases hc : (decide (pt = PatternType.arabic) &&
        !hasBracketsB currentLineText) = true
    · simp [hc]
    · simp [hc, hrun]

/-- C6 witness: Enter after `"B. t"` (uppercase letter, non-arabic)
inserts one nonempty marker at the next line's start. -/
theorem C6_witness :
    checkForEnter ['\n'] ['B', '.', ' ', 't'] [] 0 4 5 =
      [⟨5, 5, enterInsertText ['B', '.', ' ', 't'] .uppercaseLetter⟩] ∧
    enterInsertText ['B', '.', ' ', 't'] .uppercaseLetter ≠ [] := by
  exact (C6_enter_arabic_skip ['\n'] ['B', '.', ' ', 't'] [] 0 4 5
      (by decide) (by decide) (by decide)).2.1 .uppercaseLetter
    (by decide) (Or.inl (by decide)) (by decide)

/-- C6 counterexample: the line `".x"` passes the guards and classifies
as `romanNumeral` (empty roman match), yet NO insertion edit is produced
(its leading word run is empty), refuting "for every other classified
line an insertion is produced". -/
theorem C6_counterexample :
    identifyPattern (textWithoutBracketsOf ['.', 'x']) =
      some .romanNumeral ∧
    (jsTrim ['.', 'x']).isEmpty = false ∧
    doubleEnterCond ['.', 'x'] [] = false ∧
    checkForEnter ['\n'] ['.', 'x'] [] 0 2 3 = [] := by
  decide

/-- C8 (amended): for a classified, non-skipped line with an extractable
marker, the produced edit inserts at the next line's start the family
successor of the marker with the extracted punctuation (the separator
after the word run when it is `'.'` or `'、'`, else the default `'.'`),
followed by one space unless the punctuation is `'、'`; the captured
brackets are re-wrapped ONLY when both an opening and a closing bracket
were captured — a closing bracket without an opening one is classified
as bracketed but dropped from the output (see the counterexample). -/
theorem C8_marker_synthesis
    (insertedText currentLineText behindLineText : List Char)
    (curFrom curTo behindFrom : Nat) (pt : PatternType)
    (hnl : insertedText.contains '\n' = true)
    (hblank : (jsTrim currentLineText).isEmpty = false)
    (hde : doubleEnterCond currentLineText behindLineText = false)
    (hpat : identifyPattern (textWithoutBracketsOf currentLineText) =
      some pt)
    (hskip : pt ≠ .arabic ∨ hasBracketsB currentLineText = true)
    (hrun : (wordRun (textWithoutBracketsOf currentLineText)).isEmpty =
      false) :
    checkForEnter insertedText currentLineText behindLineText
        curFrom curTo behindFrom =
      [⟨behindFrom, behindFrom, enterInsertText currentLineText pt⟩] ∧
    (hasBracketsB currentLineText = false →
      enterInsertText currentLineText pt =
        getNextNumber (wordRun currentLineText)
            [punctOf currentLineText] pt ++
          (if punctOf currentLineText = '、' then [] else [' '])) ∧
    (∀ o g2 cl sp g5,
      execDecomp currentLineText = some ⟨some o, g2, some cl, sp, g5⟩ →
      enterInsertText currentLineText pt =
        (o :: ((getNextNumber (wordRun (g2 ++ sp :: g5))
            [punctOf (g2 ++ sp :: g5)] pt).dropLast ++
          cl :: sliceLast (getNextNumber (wordRun (g2 ++ sp :: g5))
            [punctOf (g2 ++ sp :: g5)] pt))) ++
          (if punctOf (g2 ++ sp :: g5) = '、' then [] else [' '])) ∧
    (∀ g2 cl sp g5,
      execDecomp currentLineText = some ⟨none, g2, some cl, sp, g5⟩ →
      enterInsertText currentLineText pt =
        getNextNumber (wordRun (g2 ++ sp :: g5))
            [punctOf (g2 ++ sp :: g5)] pt ++
          (if punctOf (g2 ++ sp :: g5) = '、' then [] else [' '])) := by
  refine ⟨?_, fun hbr => ?_, fun o g2 cl sp g5 hexec => ?_,
    fun g2 cl sp g5 hexec => ?_⟩
  · have hbase : checkForEnter insertedText currentLineText behindLineText
        curFrom curTo behindFrom =
        (match identifyPattern (textWithoutBracketsOf currentLineText) with
         | none => []
         | some pattern =>
           if pattern = .arabic && !hasBracketsB currentLineText then []
           else if (wordRun (textWithoutBracketsOf currentLineText)).isEmpty
             then []
           else [⟨behindFrom, behindFrom,
                  enterInsertText currentLineText pattern⟩]) := by
      simp only [checkForEnter, hnl, Bool.not_true, Bool.false_eq_true,
        if_false, hblank, hde]
    have hskip' : (decide (pt = PatternType.arabic) &&
        !hasBracketsB currentLineText) = false := by
      rcases hskip with h | h
      · simp [h]
      · simp [h]
    rw [hbase, hpat]
    simp only [hskip', Bool.false_eq_true, if_false, hrun]
  · have htwb : textWithoutBracketsOf currentLineText = currentLineText := by
      simp [textWithoutBracketsOf, hbr]
    unfold enterInsertText
    rw [htwb]
    rcases hm : execDecomp currentLineText with - | mm
    · rfl
    · simp [hbr]
  · have hbrt : hasBracketsB currentLineText = true := by
      simp [hasBracketsB, hexec]
    have htwb : textWithoutBracketsOf currentLineText = g2 ++ sp :: g5 := by
      simp [textWithoutBracketsOf, hbrt, replaceBrackets, hexec]
    unfold enterInsertText
    rw [htwb]
    simp [hexec, hbrt, optStr]
  · have hbrt : hasBracketsB currentLineText = true := by
      simp [hasBracketsB, hexec]
    have htwb : textWithoutBracketsOf currentLineText = g2 ++ sp :: g5 := by
      simp [textWithoutBracketsOf, hbrt, replaceBrackets, hexec]
    unfold enterInsertText
    rw [htwb]
    simp [hexec]

/-- C8 witness: Enter after `"III、 foo"` inserts `"IV、"` — roman
successor, full-width punctuation reapplied, and no trailing space. -/
theorem C8_witness :
    checkForEnter ['\n'] ['I', 'I', 'I', '、', ' ', 'f', 'o', 'o'] []
        0 8 9 = [⟨9, 9, ['I', 'V', '、']⟩] := by
  have h := C8_marker_synthesis ['\n']
      ['I', 'I', 'I', '、', ' ', 'f', 'o', 'o'] [] 0 8 9 .romanNumeral
      (by decide) (by decide) (by decide) (by decide)
      (Or.inl (by decide)) (by decide)
  rw [h.1]
  decide

/-- C8 counterexample: the line `"1). f"` captures a closing bracket
(group 3 of the decomposition) — bracket decoration is "present" and the
line is classified arabic-with-brackets — yet the produced insertion is
a bare `"2. "`: the bracket characters are NOT re-wrapped because no
opening bracket was captured. -/
theorem C8_counterexample :
    execDecomp ['1', ')', '.', ' ', 'f'] =
      some ⟨none, ['1'], some ')', '.', [' ', 'f']⟩ ∧
    checkForEnter ['\n'] ['1', ')', '.', ' ', 'f'] [] 0 5 6 =
      [⟨6, 6, ['2', '.', ' ']⟩] := by
  decide

end BetterOrderList
